import Mathlib

/-!
# libsqrl: entropy pool, rescue-code digits and previous-key history

A shallow embedding of `src/entropy/entropy.c` and of `bin2rc` from
`src/util.c`, with the properties the specification states about them.

Conventions of the embedding.

* C `int` values are `Int`; where the source does arithmetic on them the
  result is wrapped to 32 bits by `wrapInt`, and `size_t` values are taken
  modulo `2 ^ 64`.
* Byte buffers are `List Nat` (one entry per byte).
* libsodium's SHA-512 and ChaCha20, and the platform helper
  `sqrl_add_entropy_bracket` (declared in the per-platform entropy header),
  are not part of the translated files; they are fields of `Primitives`.
  Values read from the environment (fast-flux snapshots, the bracket's
  volatile sample, uninitialised stack bytes) are explicit arguments.
* The pool is the process-wide singleton; every operation is given the pool
  and returns the pool it leaves behind.  Calls are executed atomically:
  the only interleaving modelled is the collector thread running while
  `sqrl_entropy_get_blocking` sleeps.
-/

namespace Sqrl

/-! ## Constants of `entropy.c` -/

def SQRL_NIX_ENTROPY_REPEAT_FAST : Nat := 9000000
def SQRL_NIX_ENTROPY_REPEAT_SLOW : Nat := 190000000
def SQRL_ENTROPY_TARGET : Int := 512

/-- Width in bytes of a data pointer (`sizeof( buf )` for `uint8_t *buf`) on
the LP64 targets the library is built for. -/
def sizeofPointer : Nat := 8

/-- Conversion of a mathematical integer to the C `int` that stores it
(two's complement, 32 bits). -/
def wrapInt (n : Int) : Int := (n + 2 ^ 31) % 2 ^ 32 - 2 ^ 31

/-- Value of a `size_t` expression (64 bits, unsigned). -/
def wrapSize (n : Nat) : Nat := n % 2 ^ 64

/-! ## External primitives -/

/-- The operations `entropy.c` calls but does not define: libsodium's
incremental SHA-512 over a state type `σ`, its ChaCha20 stream, and the
platform's `sqrl_add_entropy_bracket`, which hashes a block made of the
optional 64-byte seed and a volatile sample into the state. -/
structure Primitives (σ : Type) where
  crypto_hash_sha512_init : σ
  crypto_hash_sha512_update : σ → List Nat → σ
  crypto_hash_sha512_final : σ → List Nat
  sqrl_add_entropy_bracket : σ → Option (List Nat) → List Nat → σ
  crypto_stream_chacha20 : Nat → List Nat → List Nat → List Nat

/-- A transparent instance of the primitives: the hash state is the byte
string absorbed so far, `final` gives the last 64 bytes absorbed, newest
first and padded with zeros, the bracket absorbs the seed (64 zero bytes when
absent) followed by the sample, and the stream repeats its key. -/
def transcript : Primitives (List Nat) where
  crypto_hash_sha512_init := []
  crypto_hash_sha512_update := fun s m => s ++ m
  crypto_hash_sha512_final := fun s => (s.reverse ++ List.replicate 64 0).take 64
  sqrl_add_entropy_bracket := fun s seed sample =>
    s ++ (seed.getD (List.replicate 64 0)) ++ sample
  crypto_stream_chacha20 := fun n nonce key =>
    (List.range n).map (fun i => (key ++ nonce).getD (i % 64) 0)

/-! ## The pool -/

/-- Fields of `struct sqrl_entropy_pool` (POSIX variant; `sleeptime` is
`sleeptime.tv_nsec`, `tv_sec` being 0 throughout).  The thread handle and
the mutex carry no data. -/
structure sqrl_entropy_pool (σ : Type) where
  state : σ
  estimated_entropy : Int
  entropy_target : Int
  initialized : Bool
  stopping : Bool
  sleeptime : Nat
  deriving DecidableEq

/-- Overwrite `buf` from its start with `out` (what a library call that fills
`out.length` bytes at `buf` does). -/
def writeAt0 (buf out : List Nat) : List Nat := out ++ buf.drop out.length

variable {σ : Type}

/-- `sqrl_increment_entropy`. -/
def sqrl_increment_entropy (pool : sqrl_entropy_pool σ) (amount : Int) :
    sqrl_entropy_pool σ :=
  let pool := { pool with estimated_entropy := wrapInt (pool.estimated_entropy + amount) }
  if pool.estimated_entropy ≥ pool.entropy_target then
    { pool with sleeptime := SQRL_NIX_ENTROPY_REPEAT_SLOW }
  else pool

/-- `sqrl_entropy_update`: one sample of the collector; `ffe` are the bytes
of the fast-flux snapshot. -/
def sqrl_entropy_update (P : Primitives σ) (pool : sqrl_entropy_pool σ) (ffe : List Nat) :
    sqrl_entropy_pool σ :=
  let pool := { pool with state := P.crypto_hash_sha512_update pool.state ffe }
  sqrl_increment_entropy pool 1

/-- The end of `sqrl_entropy_thread`, after its loop has seen `stopping`. -/
def sqrl_entropy_thread_exit (pool : sqrl_entropy_pool σ) : sqrl_entropy_pool σ :=
  { pool with estimated_entropy := 0, initialized := false }

/-- `sqrl_entropy_create`; `sample` is what the bracket reads. -/
def sqrl_entropy_create (P : Primitives σ) (sample : List Nat) : sqrl_entropy_pool σ :=
  { initialized := true
    stopping := false
    estimated_entropy := 0
    entropy_target := SQRL_ENTROPY_TARGET
    sleeptime := SQRL_NIX_ENTROPY_REPEAT_FAST
    state := P.sqrl_add_entropy_bracket P.crypto_hash_sha512_init none sample }

/-- `sqrl_entropy_add`.  `msg_len` is `msg.length`; `ffe` is the fast-flux
snapshot and `allocOk` tells whether `malloc` returned a buffer.  The buffer
holds `msg ++ ffe`, and the update is given `sizeof( buf )` bytes of it. -/
def sqrl_entropy_add (P : Primitives σ) (pool : sqrl_entropy_pool σ) (msg ffe : List Nat)
    (allocOk : Bool) : sqrl_entropy_pool σ :=
  if pool.initialized then
    if pool.initialized then
      if allocOk then
        let buf := msg ++ ffe
        let pool := { pool with
          state := P.crypto_hash_sha512_update pool.state (buf.take sizeofPointer) }
        sqrl_increment_entropy pool (wrapInt ((wrapSize (1 + wrapSize msg.length / 64) : Nat) : Int))
      else pool
    else pool
  else pool

/-- `sqrl_entropy_get`.  `s1` and `s2` are the samples read by the two
bracket calls.  Returns the value returned, the pool and the buffer. -/
def sqrl_entropy_get (P : Primitives σ) (pool : sqrl_entropy_pool σ) (buf : List Nat)
    (desired_entropy : Int) (s1 s2 : List Nat) : Int × sqrl_entropy_pool σ × List Nat :=
  let received_entropy : Int := 0
  let (received_entropy, pool, buf) :=
    if pool.initialized && decide (pool.estimated_entropy ≥ desired_entropy) then
      if pool.initialized && decide (pool.estimated_entropy ≥ desired_entropy) then
        let st := P.sqrl_add_entropy_bracket pool.state none s1
        let buf := writeAt0 buf (P.crypto_hash_sha512_final st)
        let st := P.crypto_hash_sha512_init
        let st := P.sqrl_add_entropy_bracket st (some (buf.take 64)) s2
        let received_entropy := pool.estimated_entropy
        (received_entropy, { pool with state := st, estimated_entropy := 0 }, buf)
      else (received_entropy, pool, buf)
    else (received_entropy, pool, buf)
  let pool :=
    if pool.estimated_entropy < desired_entropy then
      { pool with entropy_target := desired_entropy }
    else pool
  (received_entropy, { pool with sleeptime := SQRL_NIX_ENTROPY_REPEAT_FAST }, buf)

/-- `sqrl_entropy_estimate`. -/
def sqrl_entropy_estimate (pool : sqrl_entropy_pool σ) : Int :=
  if pool.initialized then pool.estimated_entropy else 0

/-- What the collector thread can do to the pool while another thread
sleeps: take a sample, or leave its loop and mark the pool stopped. -/
inductive CollectorEvent where
  | update (ffe : List Nat)
  | exit
  deriving DecidableEq, Repr

def CollectorEvent.run (P : Primitives σ) (pool : sqrl_entropy_pool σ) :
    CollectorEvent → sqrl_entropy_pool σ
  | .update ffe => sqrl_entropy_update P pool ffe
  | .exit => sqrl_entropy_thread_exit pool

/-- The loop `while( pool->estimated_entropy < desired_entropy ) nanosleep`
of `sqrl_entropy_get_blocking`.  Each element of `sleeps` is what the
collector does during one sleep; when the list is used up and the condition
still holds, nothing can change the pool any more and the loop does not
end (`none`).  Returns the pool and the sleeps not consumed. -/
def waitForEntropy (P : Primitives σ) (desired_entropy : Int) :
    sqrl_entropy_pool σ → List (List CollectorEvent) →
      Option (sqrl_entropy_pool σ × List (List CollectorEvent))
  | pool, [] => if pool.estimated_entropy < desired_entropy then none else some (pool, [])
  | pool, evs :: rest =>
    if pool.estimated_entropy < desired_entropy then
      waitForEntropy P desired_entropy (evs.foldl (CollectorEvent.run P) pool) rest
    else some (pool, evs :: rest)

/-- `sqrl_entropy_get_blocking`.  `fuel` bounds the number of times control
reaches the label `START`; `sleeps` is the collector's activity during the
successive sleeps.  `none` means the call has not returned. -/
def sqrl_entropy_get_blocking (P : Primitives σ) :
    Nat → sqrl_entropy_pool σ → List Nat → Int → List (List CollectorEvent) →
      List Nat → List Nat → Option (Int × sqrl_entropy_pool σ × List Nat)
  | 0, _, _, _, _, _, _ => none
  | fuel + 1, pool, buf, desired_entropy, sleeps, s1, s2 =>
    if !pool.initialized then some (0, pool, buf)
    else
      let pool := { pool with entropy_target := desired_entropy }
      match waitForEntropy P desired_entropy pool sleeps with
      | none => none
      | some (pool, sleeps) =>
        if pool.initialized && decide (pool.estimated_entropy ≥ desired_entropy) then
          if pool.initialized && decide (pool.estimated_entropy ≥ desired_entropy) then
            let st := P.sqrl_add_entropy_bracket pool.state none s1
            let buf := writeAt0 buf (P.crypto_hash_sha512_final st)
            let st := P.crypto_hash_sha512_init
            let st := P.sqrl_add_entropy_bracket st (some (buf.take 64)) s2
            let received_entropy := pool.estimated_entropy
            let pool := { pool with state := st, estimated_entropy := 0 }
            some (received_entropy,
              { pool with entropy_target := SQRL_ENTROPY_TARGET,
                          sleeptime := SQRL_NIX_ENTROPY_REPEAT_FAST }, buf)
          else sqrl_entropy_get_blocking P fuel pool buf desired_entropy sleeps s1 s2
        else sqrl_entropy_get_blocking P fuel pool buf desired_entropy sleeps s1 s2

/-- `sqrl_entropy_bytes`.  `buf` is `none` for a null pointer; `tmp` holds
the 64 bytes found on the stack where the local array is placed (the source
does not fill it); `needed` is `SQRL_ENTROPY_NEEDED`, defined in a header
that is not among the translated files.  The nonce of the stream is the
first `crypto_stream_chacha20_NONCEBYTES = 8` bytes of `tmp`, the key the 32
bytes after them.  The value returned by `sqrl_entropy_get_blocking` is
dropped, as in the source. -/
def sqrl_entropy_bytes (P : Primitives σ) (needed : Int) (fuel : Nat)
    (pool : sqrl_entropy_pool σ) (buf : Option (List Nat)) (nBytes : Int) (tmp : List Nat)
    (sleeps : List (List CollectorEvent)) (s1 s2 : List Nat) :
    Option (Int × sqrl_entropy_pool σ × Option (List Nat)) :=
  match buf with
  | none => some (0, pool, none)
  | some buf =>
    if nBytes ≤ 0 then some (0, pool, some buf)
    else
      let desired_entropy : Int := if nBytes > 64 then 8 * 64 else wrapInt (8 * nBytes)
      let desired_entropy := if desired_entropy > needed then needed else desired_entropy
      match sqrl_entropy_get_blocking P fuel pool tmp desired_entropy sleeps s1 s2 with
      | none => none
      | some (_, pool, tmp) =>
        let buf :=
          if nBytes ≤ 64 then writeAt0 buf (tmp.take nBytes.toNat)
          else writeAt0 buf
            (P.crypto_stream_chacha20 nBytes.toNat (tmp.take 8) ((tmp.drop 8).take 32))
        some (nBytes, pool, some buf)

/-- A call of the public pool interface by a client thread, with the values
the call reads from its environment. -/
inductive PoolCall where
  | add (msg ffe : List Nat) (allocOk : Bool)
  | get (buf : List Nat) (desired_entropy : Int) (s1 s2 : List Nat)
  | get_blocking (fuel : Nat) (buf : List Nat) (desired_entropy : Int)
      (sleeps : List (List CollectorEvent)) (s1 s2 : List Nat)
  | estimate

/-- The pool left by one call; `none` when the call does not return. -/
def PoolCall.step (P : Primitives σ) (pool : sqrl_entropy_pool σ) :
    PoolCall → Option (sqrl_entropy_pool σ)
  | .add msg ffe allocOk => some (sqrl_entropy_add P pool msg ffe allocOk)
  | .get buf d s1 s2 => some (sqrl_entropy_get P pool buf d s1 s2).2.1
  | .get_blocking fuel buf d sleeps s1 s2 =>
    (sqrl_entropy_get_blocking P (fuel + 1) pool buf d sleeps s1 s2).map (fun r => r.2.1)
  | .estimate => some pool

/-- The pool left by a sequence of calls, each started after the previous
one has returned. -/
def runCalls (P : Primitives σ) : sqrl_entropy_pool σ → List PoolCall →
    Option (sqrl_entropy_pool σ)
  | pool, [] => some pool
  | pool, c :: cs =>
    match c.step P pool with
    | none => none
    | some pool => runCalls P pool cs

/-- A pool the collector has left: created, fed three samples, then
stopped. -/
def stoppedPool : sqrl_entropy_pool (List Nat) :=
  sqrl_entropy_thread_exit
    ((List.replicate 3 [1, 2]).foldl (sqrl_entropy_update transcript)
      (sqrl_entropy_create transcript [7]))

/-- A pool with 600 bits of estimated entropy. -/
def fullPool : sqrl_entropy_pool (List Nat) :=
  { sqrl_entropy_create transcript [7] with estimated_entropy := 600 }

/-- One step of a sequential run on the pool: a sample taken by the collector
thread (`sqrl_entropy_update`), or a call of the public interface. -/
inductive PoolStep where
  | update (ffe : List Nat)
  | call (c : PoolCall)

/-- The pool left by one step; `none` when the call does not return. -/
def PoolStep.run (P : Primitives σ) (pool : sqrl_entropy_pool σ) :
    PoolStep → Option (sqrl_entropy_pool σ)
  | .update ffe => some (sqrl_entropy_update P pool ffe)
  | .call c => c.step P pool

/-- The step keeps the `int` counter in range: the amount added by
`sqrl_increment_entropy` and the sum both fit in an `int`. -/
def PoolStep.inRange (pool : sqrl_entropy_pool σ) : PoolStep → Bool
  | .update _ => decide (pool.estimated_entropy + 1 < 2 ^ 31)
  | .call (.add msg _ _) =>
    decide (1 + (msg.length : Int) / 64 < 2 ^ 31 ∧
      pool.estimated_entropy + (1 + (msg.length : Int) / 64) < 2 ^ 31)
  | .call _ => true

/-- The pool left by a sequence of steps, each started after the previous
one has ended. -/
def runSteps (P : Primitives σ) : sqrl_entropy_pool σ → List PoolStep →
    Option (sqrl_entropy_pool σ)
  | pool, [] => some pool
  | pool, s :: rest =>
    match s.run P pool with
    | none => none
    | some pool => runSteps P pool rest

/-- No step of the run overflows the `int` counter. -/
def stepsInRange (P : Primitives σ) : sqrl_entropy_pool σ → List PoolStep → Bool
  | _, [] => true
  | pool, s :: rest =>
    s.inRange pool &&
      match s.run P pool with
      | none => true
      | some pool => stepsInRange P pool rest

/-- A run used in examples: five samples, an `add`, a `get_blocking` that
waits for three samples, a `get` that is not served and lowers the target to
3, and four more samples that reach it. -/
def sampleRun : List PoolStep :=
  List.replicate 5 (.update [1]) ++
    [.call (.add [1, 2, 3] [4] true),
      .call (.get_blocking 0 [] 9 [[.update [7]], [.update [8], .update [9]]] [5] [6]),
      .call (.get [] 3 [5] [6]), .call .estimate] ++
    List.replicate 4 (.update [2])

/-- The pool `sampleRun` leaves when started on a fresh pool. -/
def sampleRunPool : sqrl_entropy_pool (List Nat) :=
  (runSteps transcript (sqrl_entropy_create transcript [7]) sampleRun).getD
    (sqrl_entropy_create transcript [7])

/-- The invariant of an initialized pool between calls: the counter is not
negative, the target is positive, and the sleep interval is the slow one
with the target reached or the fast one with the target not reached. -/
def intervalInvariant (pool : sqrl_entropy_pool σ) : Prop :=
  pool.initialized = true →
    0 ≤ pool.estimated_entropy ∧ 0 < pool.entropy_target ∧
    ((pool.sleeptime = SQRL_NIX_ENTROPY_REPEAT_SLOW ∧
        pool.entropy_target ≤ pool.estimated_entropy) ∨
      (pool.sleeptime = SQRL_NIX_ENTROPY_REPEAT_FAST ∧
        pool.estimated_entropy < pool.entropy_target))

/-! ## `bin2rc` (`util.c`) -/

/-- The value read through `tmp[k]`, where `tmp = (uint64_t*)bin`: the eight
bytes from offset `8 * k`, least significant first (little-endian host). -/
def load64 (bin : List Nat) (k : Nat) : Nat :=
  ((List.range 8).map (fun i => bin.getD (8 * k + i) 0 * 256 ^ i)).sum

/-- The bytes of `bin` after the assignment `tmp[k] = v`. -/
def store64 (bin : List Nat) (k v : Nat) : List Nat :=
  (List.range 8).foldl (fun b i => b.set (8 * k + i) (v / 256 ^ i % 256)) bin

/-- The variables of `bin2rc` that change: the output `buf`, the seed `bin`
(written through `tmp`) and the output index `j`. -/
structure RcState where
  buf : List Nat
  bin : List Nat
  j : Nat

/-- Body of the inner loop: `buf[j++] = '0' + (tmp[k] % 10); tmp[k] /= 10;`
(`'0'` is 48). -/
def bin2rc_step (st : RcState) (k : Nat) : RcState :=
  { buf := st.buf.set st.j (48 + load64 st.bin k % 10)
    bin := store64 st.bin k (load64 st.bin k / 10)
    j := st.j + 1 }

/-- The inner loop `for( k = 0; k < 8; k++ )`. -/
def bin2rc_round (st : RcState) : RcState := (List.range 8).foldl bin2rc_step st

/-- `bin2rc`: three rounds, then `buf[j] = 0`.  Returns the output buffer and
the seed buffer as the call leaves them. -/
def bin2rc (buf bin : List Nat) : List Nat × List Nat :=
  let st := (List.range 3).foldl (fun st _ => bin2rc_round st) ⟨buf, bin, 0⟩
  (st.buf.set st.j 0, st.bin)

/-- A 64-byte seed used in examples: bytes 0, 3, 6, ... -/
def sampleSeed : List Nat := (List.range 64).map (fun i => 3 * i)

/-! ## Rescue-code collisions -/

/-- The values a 64-byte seed can take. -/
abbrev Seed := Fin 64 → Fin 256

/-- The bytes of a seed, in memory order. -/
def seedBytes (s : Seed) : List Nat := List.ofFn (fun i => (s i).val)

/-- The 24 characters `bin2rc` writes for a seed. -/
def rescueCode (s : Seed) : List Nat := (bin2rc (List.replicate 25 0) (seedBytes s)).1.take 24

/-- The pairs of seeds that are given the same rescue code. -/
def collidingPairs : Finset (Seed × Seed) :=
  Finset.univ.filter (fun p => rescueCode p.1 = rescueCode p.2)

/-- Probability that two seeds drawn independently and uniformly get the
same rescue code. -/
def collisionProbability : ℚ := (collidingPairs.card : ℚ) / 2 ^ 1024

/-- The lanes of a seed. -/
def laneMap (s : Seed) (k : Fin 8) : Fin (2 ^ 64) :=
  ⟨load64 (seedBytes s) k % 2 ^ 64, Nat.mod_lt _ (by decide)⟩

/-- Number of pairs of 64-bit values with the same residue modulo 1000. -/
def pairsPerLane : Nat := 616 * (2 ^ 64 / 1000 + 1) ^ 2 + 384 * (2 ^ 64 / 1000) ^ 2

/-! ## Previous identity unlock keys -/

/-- Key slots of an identity, as named by the test `test/user.c`. -/
inductive KeySlot where
  | KEY_MK | KEY_ILK | KEY_IUK | KEY_PIUK0 | KEY_PIUK1 | KEY_PIUK2 | KEY_PIUK3
  deriving DecidableEq, Repr

/-- The derivations of the key hierarchy (spec 3.3), external to the model:
`ILK = x25519_base_mult(IUK)` and `MK = en_hash(IUK)`. -/
structure KeyDerivation where
  x25519_base_mult : List Nat → List Nat
  en_hash : List Nat → List Nat

/-- Modelled from the spec: the resident keys of an identity (`Sqrl_User`,
defined in `user.c`, which is not among the translated files).  The spec
gives an identity a current IUK, the ILK and MK derived from it, and up to
four previous IUKs in the slots PIUK0 (newest) to PIUK3 (oldest). -/
structure Sqrl_User where
  iuk : List Nat
  ilk : List Nat
  imk : List Nat
  piuk0 : Option (List Nat)
  piuk1 : Option (List Nat)
  piuk2 : Option (List Nat)
  piuk3 : Option (List Nat)
  deriving DecidableEq, Repr

/-- Modelled from the spec: `sqrl_user_rekey` (in `user.c`, not among the
translated files), after spec 4.D "Rekey": draw a fresh IUK from the pool
(`fresh`); shift the current IUK into PIUK0, shift PIUK0..PIUK2 down one,
discard what was PIUK3; re-derive ILK and IMK from the new IUK. -/
def sqrl_user_rekey (D : KeyDerivation) (u : Sqrl_User) (fresh : List Nat) : Sqrl_User :=
  { iuk := fresh
    ilk := D.x25519_base_mult fresh
    imk := D.en_hash fresh
    piuk0 := some u.iuk
    piuk1 := u.piuk0
    piuk2 := u.piuk1
    piuk3 := u.piuk2 }

/-- Modelled from the spec: `sqrl_user_key` (in `user.c`, not among the
translated files) on an identity whose keys are resident: the content of the
requested slot, `none` when the slot holds no key. -/
def sqrl_user_key (u : Sqrl_User) : KeySlot → Option (List Nat)
  | .KEY_MK => some u.imk
  | .KEY_ILK => some u.ilk
  | .KEY_IUK => some u.iuk
  | .KEY_PIUK0 => u.piuk0
  | .KEY_PIUK1 => u.piuk1
  | .KEY_PIUK2 => u.piuk2
  | .KEY_PIUK3 => u.piuk3

/-- The previous-IUK list of an identity, newest first: the keys found in
PIUK0..PIUK3. -/
def previousKeys (u : Sqrl_User) : List (List Nat) :=
  [u.piuk0, u.piuk1, u.piuk2, u.piuk3].filterMap id

/-- The slots are filled from PIUK0 on, with no empty slot before a used
one. -/
def slotsContiguous (u : Sqrl_User) : Bool :=
  (u.piuk1.isNone || u.piuk0.isSome) && (u.piuk2.isNone || u.piuk1.isSome) &&
    (u.piuk3.isNone || u.piuk2.isSome)

/-- A key derivation used in examples. -/
def sampleDerivation : KeyDerivation where
  x25519_base_mult := fun k => k.map (· + 1)
  en_hash := fun k => k.reverse

/-- An identity with four previous keys. -/
def sampleUser : Sqrl_User :=
  { iuk := [5], ilk := [6], imk := [5], piuk0 := some [4], piuk1 := some [3],
    piuk2 := some [2], piuk3 := some [1] }

/-! ## Theorems: the entropy pool -/

/-- C1: on an initialized pool whose estimate `e` is at least `desired_bits`,
`sqrl_entropy_get` returns `e` and leaves the estimate at 0. -/
theorem sqrl_entropy_get_success (P : Primitives σ) (pool : sqrl_entropy_pool σ)
    (buf : List Nat) (desired_bits : Int) (s1 s2 : List Nat)
    (hinit : pool.initialized = true) (he : pool.estimated_entropy ≥ desired_bits) :
    (sqrl_entropy_get P pool buf desired_bits s1 s2).1 = pool.estimated_entropy ∧
      (sqrl_entropy_get P pool buf desired_bits s1 s2).2.1.estimated_entropy = 0 := by
  unfold sqrl_entropy_get
  simp only [hinit, he, decide_True, Bool.and_self, if_true]
  refine ⟨trivial, ?_⟩
  split <;> rfl

theorem sqrl_entropy_get_success_witness :
    (sqrl_entropy_get transcript fullPool [] 512 [1] [2]).1 = fullPool.estimated_entropy ∧
      (sqrl_entropy_get transcript fullPool [] 512 [1] [2]).2.1.estimated_entropy = 0 :=
  sqrl_entropy_get_success transcript fullPool [] 512 [1] [2] rfl (by decide)

/-- C2: on an initialized pool whose estimate is below `desired_bits`,
`sqrl_entropy_get` returns 0, leaves the buffer, the hash state and the
estimate as they were, and the entropy target equals `desired_bits`
afterwards. -/
theorem sqrl_entropy_get_insufficient (P : Primitives σ) (pool : sqrl_entropy_pool σ)
    (buf : List Nat) (desired_bits : Int) (s1 s2 : List Nat)
    (hinit : pool.initialized = true) (he : pool.estimated_entropy < desired_bits) :
    (sqrl_entropy_get P pool buf desired_bits s1 s2).1 = 0 ∧
      (sqrl_entropy_get P pool buf desired_bits s1 s2).2.2 = buf ∧
      (sqrl_entropy_get P pool buf desired_bits s1 s2).2.1.state = pool.state ∧
      (sqrl_entropy_get P pool buf desired_bits s1 s2).2.1.estimated_entropy
        = pool.estimated_entropy ∧
      (sqrl_entropy_get P pool buf desired_bits s1 s2).2.1.entropy_target = desired_bits := by
  have hn : ¬ (pool.estimated_entropy ≥ desired_bits) := not_le.mpr he
  unfold sqrl_entropy_get
  simp [hinit, hn, he]

theorem sqrl_entropy_get_insufficient_witness :
    (sqrl_entropy_get transcript fullPool [5] 700 [1] [2]).1 = 0 ∧
      (sqrl_entropy_get transcript fullPool [5] 700 [1] [2]).2.2 = [5] ∧
      (sqrl_entropy_get transcript fullPool [5] 700 [1] [2]).2.1.state = fullPool.state ∧
      (sqrl_entropy_get transcript fullPool [5] 700 [1] [2]).2.1.estimated_entropy
        = fullPool.estimated_entropy ∧
      (sqrl_entropy_get transcript fullPool [5] 700 [1] [2]).2.1.entropy_target = 700 :=
  sqrl_entropy_get_insufficient transcript fullPool [5] 700 [1] [2] rfl (by decide)

theorem wrapInt_of_range (n : Int) (hlo : -2 ^ 31 ≤ n) (hhi : n < 2 ^ 31) : wrapInt n = n := by
  unfold wrapInt
  rw [Int.emod_eq_of_lt (by omega) (by omega)]
  omega

theorem estimated_entropy_increment (pool : sqrl_entropy_pool σ) (amount : Int) :
    (sqrl_increment_entropy pool amount).estimated_entropy
      = wrapInt (pool.estimated_entropy + amount) := by
  unfold sqrl_increment_entropy
  dsimp only
  split <;> rfl

/-- C3: on an initialized pool, with the allocation succeeding and no
overflow of the `int` counter, `sqrl_entropy_add` of a message of `len` bytes
raises the estimate by exactly `1 + len / 64`. -/
theorem sqrl_entropy_add_estimate (P : Primitives σ) (pool : sqrl_entropy_pool σ)
    (msg ffe : List Nat) (hinit : pool.initialized = true)
    (hlen : msg.length < 2 ^ 64)
    (hlo : -2 ^ 31 ≤ pool.estimated_entropy)
    (hamount : 1 + (msg.length : Int) / 64 < 2 ^ 31)
    (hhi : pool.estimated_entropy + (1 + (msg.length : Int) / 64) < 2 ^ 31) :
    (sqrl_entropy_add P pool msg ffe true).estimated_entropy
      = pool.estimated_entropy + (1 + (msg.length : Int) / 64) := by
  have h1 : wrapSize msg.length = msg.length := Nat.mod_eq_of_lt hlen
  have h2 : wrapSize (1 + msg.length / 64) = 1 + msg.length / 64 :=
    Nat.mod_eq_of_lt (by omega)
  have h3 : ((1 + msg.length / 64 : Nat) : Int) = 1 + (msg.length : Int) / 64 := by
    push_cast
    rfl
  have h4 : (0 : Int) ≤ (msg.length : Int) / 64 :=
    Int.ediv_nonneg (Int.ofNat_nonneg _) (by decide)
  unfold sqrl_entropy_add
  simp only [hinit, if_true]
  rw [estimated_entropy_increment, h1, h2, h3,
    wrapInt_of_range (1 + (msg.length : Int) / 64) (by omega) hamount]
  exact wrapInt_of_range _ (by dsimp only; omega) hhi

theorem sqrl_entropy_add_estimate_witness :
    (sqrl_entropy_add transcript fullPool (List.replicate 130 7) [1, 2] true).estimated_entropy
      = fullPool.estimated_entropy + (1 + ((List.replicate 130 7).length : Int) / 64) :=
  sqrl_entropy_add_estimate transcript fullPool (List.replicate 130 7) [1, 2] rfl
    (by simp) (by decide) (by simp) (by simp; decide)

/-- C4: when `sqrl_entropy_estimate` reports at least 512, the following
`sqrl_entropy_get_blocking( buf, 512 )` returns, its value is at least 512,
and `sqrl_entropy_estimate` on the pool it leaves is 0. -/
theorem sqrl_entropy_get_blocking_after_estimate (P : Primitives σ)
    (pool : sqrl_entropy_pool σ) (buf : List Nat) (fuel : Nat)
    (sleeps : List (List CollectorEvent)) (s1 s2 : List Nat)
    (h : sqrl_entropy_estimate pool ≥ 512) :
    ∃ r pool' buf',
      sqrl_entropy_get_blocking P (fuel + 1) pool buf 512 sleeps s1 s2 = some (r, pool', buf') ∧
      r ≥ 512 ∧ sqrl_entropy_estimate pool' = 0 := by
  have hinit : pool.initialized = true := by
    unfold sqrl_entropy_estimate at h
    by_contra hc
    simp [hc] at h
  have he : pool.estimated_entropy ≥ 512 := by
    unfold sqrl_entropy_estimate at h
    simpa [hinit] using h
  have hn : ¬ pool.estimated_entropy < 512 := not_lt.mpr he
  have hw : waitForEntropy P 512 { pool with entropy_target := 512 } sleeps
      = some ({ pool with entropy_target := 512 }, sleeps) := by
    cases sleeps <;> simp [waitForEntropy, hn]
  have hrun : sqrl_entropy_get_blocking P (fuel + 1) pool buf 512 sleeps s1 s2
      = some (pool.estimated_entropy,
          { pool with
            state := P.sqrl_add_entropy_bracket P.crypto_hash_sha512_init
              (some ((writeAt0 buf (P.crypto_hash_sha512_final
                (P.sqrl_add_entropy_bracket pool.state none s1))).take 64)) s2
            estimated_entropy := 0
            entropy_target := SQRL_ENTROPY_TARGET
            sleeptime := SQRL_NIX_ENTROPY_REPEAT_FAST },
          writeAt0 buf (P.crypto_hash_sha512_final
            (P.sqrl_add_entropy_bracket pool.state none s1))) := by
    unfold sqrl_entropy_get_blocking
    simp only [hw]
    simp [hinit, he]
  exact ⟨_, _, _, hrun, he, by simp [sqrl_entropy_estimate]⟩

theorem sqrl_entropy_get_blocking_after_estimate_witness :
    ∃ r pool' buf',
      sqrl_entropy_get_blocking transcript (0 + 1) fullPool [] 512 [] [1] [2]
        = some (r, pool', buf') ∧
      r ≥ 512 ∧ sqrl_entropy_estimate pool' = 0 :=
  sqrl_entropy_get_blocking_after_estimate transcript fullPool [] 0 [] [1] [2] (by decide)

theorem sqrl_entropy_add_state (P : Primitives σ) (pool : sqrl_entropy_pool σ)
    (msg ffe : List Nat) (hinit : pool.initialized = true) :
    (sqrl_entropy_add P pool msg ffe true).state
      = P.crypto_hash_sha512_update pool.state ((msg ++ ffe).take sizeofPointer) := by
  unfold sqrl_entropy_add sqrl_increment_entropy
  simp only [hinit, if_true]
  split <;> rfl

/-- C6, evaluated where the code departs from it: with a 16-byte message and
a 16-byte snapshot, `sqrl_entropy_add` absorbs the first 8 bytes of the
message only, so the state is not the one obtained by absorbing
`msg ++ ffe`. -/
theorem sqrl_entropy_add_absorbs_pointer_width :
    (sqrl_entropy_add transcript fullPool
        [1, 2, 3, 4, 5, 6, 7, 8, 9, 10, 11, 12, 13, 14, 15, 16]
        [17, 18, 19, 20, 21, 22, 23, 24, 25, 26, 27, 28, 29, 30, 31, 32] true).state
      = transcript.crypto_hash_sha512_update fullPool.state [1, 2, 3, 4, 5, 6, 7, 8] ∧
    (sqrl_entropy_add transcript fullPool
        [1, 2, 3, 4, 5, 6, 7, 8, 9, 10, 11, 12, 13, 14, 15, 16]
        [17, 18, 19, 20, 21, 22, 23, 24, 25, 26, 27, 28, 29, 30, 31, 32] true).state
      ≠ transcript.crypto_hash_sha512_update fullPool.state
          ([1, 2, 3, 4, 5, 6, 7, 8, 9, 10, 11, 12, 13, 14, 15, 16] ++
            [17, 18, 19, 20, 21, 22, 23, 24, 25, 26, 27, 28, 29, 30, 31, 32]) := by
  decide

theorem PoolCall.step_stopped (P : Primitives σ) (pool : sqrl_entropy_pool σ)
    (hinit : pool.initialized = false) (hest : pool.estimated_entropy = 0) (c : PoolCall) :
    ∃ pool', c.step P pool = some pool' ∧ pool'.initialized = false ∧
      pool'.estimated_entropy = 0 := by
  cases c with
  | add msg ffe allocOk =>
    exact ⟨pool, by simp [PoolCall.step, sqrl_entropy_add, hinit], hinit, hest⟩
  | get buf d s1 s2 =>
    refine ⟨_, rfl, ?_, ?_⟩
    · unfold sqrl_entropy_get
      simp only [hinit, Bool.false_and, Bool.false_eq_true, if_false]
      split <;> simp [hinit]
    · unfold sqrl_entropy_get
      simp only [hinit, Bool.false_and, Bool.false_eq_true, if_false]
      split <;> exact hest
  | get_blocking fuel buf d sleeps s1 s2 =>
    exact ⟨pool, by simp [PoolCall.step, sqrl_entropy_get_blocking, hinit], hinit, hest⟩
  | estimate => exact ⟨pool, rfl, hinit, hest⟩

theorem runCalls_stopped (P : Primitives σ) (calls : List PoolCall) :
    ∀ pool : sqrl_entropy_pool σ, pool.initialized = false → pool.estimated_entropy = 0 →
      ∃ pool', runCalls P pool calls = some pool' ∧ pool'.initialized = false ∧
        pool'.estimated_entropy = 0 := by
  induction calls with
  | nil => exact fun pool hinit hest => ⟨pool, rfl, hinit, hest⟩
  | cons c cs ih =>
    intro pool hinit hest
    obtain ⟨q, hq, hqi, hqe⟩ := PoolCall.step_stopped P pool hinit hest c
    obtain ⟨r, hr, hri, hre⟩ := ih q hqi hqe
    exact ⟨r, by simp [runCalls, hq, hr], hri, hre⟩

/-- C7: from a stopped pool (`initialized = false`, estimate 0) every
sequence of `add`, `get`, `get_blocking` and `estimate` calls runs to the
end, and in the pool it reaches `sqrl_entropy_estimate` is 0 while
`sqrl_entropy_get` and `sqrl_entropy_get_blocking` return 0 for every
requested amount and leave the buffer as it was. -/
theorem stopped_pool_reports_zero (P : Primitives σ) (pool : sqrl_entropy_pool σ)
    (hinit : pool.initialized = false) (hest : pool.estimated_entropy = 0)
    (calls : List PoolCall) :
    ∃ pool', runCalls P pool calls = some pool' ∧
      pool'.initialized = false ∧ pool'.estimated_entropy = 0 ∧
      sqrl_entropy_estimate pool' = 0 ∧
      ∀ (buf : List Nat) (d : Int) (s1 s2 : List Nat),
        (sqrl_entropy_get P pool' buf d s1 s2).1 = 0 ∧
        (sqrl_entropy_get P pool' buf d s1 s2).2.2 = buf ∧
        ∀ (fuel : Nat) (sleeps : List (List CollectorEvent)),
          sqrl_entropy_get_blocking P (fuel + 1) pool' buf d sleeps s1 s2
            = some (0, pool', buf) := by
  obtain ⟨q, hq, hqi, hqe⟩ := runCalls_stopped P calls pool hinit hest
  refine ⟨q, hq, hqi, hqe, by simp [sqrl_entropy_estimate, hqi], ?_⟩
  intro buf d s1 s2
  refine ⟨?_, ?_, ?_⟩
  · unfold sqrl_entropy_get
    simp [hqi]
  · unfold sqrl_entropy_get
    simp [hqi]
  · intro fuel sleeps
    simp [sqrl_entropy_get_blocking, hqi]

theorem stopped_pool_reports_zero_witness :
    ∃ pool', runCalls transcript stoppedPool
        [.add [1, 2, 3] [4] true, .get [] 0 [5] [6], .get_blocking 0 [] 512 [] [7] [8],
          .estimate] = some pool' ∧
      pool'.initialized = false ∧ pool'.estimated_entropy = 0 ∧
      sqrl_entropy_estimate pool' = 0 ∧
      ∀ (buf : List Nat) (d : Int) (s1 s2 : List Nat),
        (sqrl_entropy_get transcript pool' buf d s1 s2).1 = 0 ∧
        (sqrl_entropy_get transcript pool' buf d s1 s2).2.2 = buf ∧
        ∀ (fuel : Nat) (sleeps : List (List CollectorEvent)),
          sqrl_entropy_get_blocking transcript (fuel + 1) pool' buf d sleeps s1 s2
            = some (0, pool', buf) :=
  stopped_pool_reports_zero transcript stoppedPool rfl rfl _

/-- C8, evaluated where the code departs from it: on a stopped pool
`sqrl_entropy_bytes` asked for 16 bytes returns 16, not 0, and hands out
the 16 bytes that happened to be in its local array. -/
theorem sqrl_entropy_bytes_on_stopped_pool :
    sqrl_entropy_bytes transcript 512 1 stoppedPool (some (List.replicate 16 0)) 16
        (List.replicate 64 170) [] [1] [2]
      = some (16, stoppedPool, some (List.replicate 16 170)) ∧
    stoppedPool.initialized = false := by
  decide

/-! ## Theorems: `bin2rc` -/

theorem range8 : List.range 8 = [0, 1, 2, 3, 4, 5, 6, 7] := by decide

theorem length_store64 (bin : List Nat) (k v : Nat) : (store64 bin k v).length = bin.length := by
  simp [store64, range8]

theorem getElem?_store64 (bin : List Nat) (k v p : Nat) (hk : 8 * k + 8 ≤ bin.length) :
    (store64 bin k v)[p]? = if 8 * k ≤ p ∧ p < 8 * k + 8 then some (v / 256 ^ (p - 8 * k) % 256) else bin[p]? := by
  simp only [store64, range8, List.foldl, List.getElem?_set, List.length_set]
  by_cases h : 8 * k ≤ p ∧ p < 8 * k + 8
  · obtain ⟨j, rfl⟩ : ∃ j, p = 8 * k + j := ⟨p - 8 * k, by omega⟩
    have hj : j < 8 := by omega
    interval_cases j <;> simp <;> omega
  · rw [if_neg h]
    repeat rw [if_neg (by omega)]

theorem load64_store64_same (bin : List Nat) (k v : Nat) (hk : 8 * k + 8 ≤ bin.length) :
    load64 (store64 bin k v) k = v % 2 ^ 64 := by
  simp only [load64, range8, List.map, List.sum_cons, List.sum_nil, List.getD_eq_getElem?_getD,
    getElem?_store64 _ _ _ _ hk]
  simp
  omega

theorem load64_store64_other (bin : List Nat) (k k' v : Nat) (hk : 8 * k + 8 ≤ bin.length) (hne : k' ≠ k) :
    load64 (store64 bin k v) k' = load64 bin k' := by
  simp only [load64, range8, List.map, List.sum_cons, List.sum_nil, List.getD_eq_getElem?_getD,
    getElem?_store64 _ _ _ _ hk]
  repeat rw [if_neg (by omega)]

theorem load64_lt (bin : List Nat) (k : Nat) (hb : ∀ b ∈ bin, b < 256) : load64 bin k < 2 ^ 64 := by
  have h : ∀ p, bin.getD p 0 < 256 := by
    intro p
    rw [List.getD_eq_getElem?_getD]
    cases hp : bin[p]? with
    | none => simp
    | some b => exact hb b (List.getElem?_mem hp)
  have h0 := h (8 * k + 0); have h1 := h (8 * k + 1); have h2 := h (8 * k + 2)
  have h3 := h (8 * k + 3); have h4 := h (8 * k + 4); have h5 := h (8 * k + 5)
  have h6 := h (8 * k + 6); have h7 := h (8 * k + 7)
  simp only [load64, range8, List.map, List.sum_cons, List.sum_nil]
  omega

/-- State of the lanes and of the output after the first `n` steps of a round. -/
theorem bin2rc_steps (n : Nat) (hn : n ≤ 8) (st : RcState) (hlen : 64 ≤ st.bin.length)
    (hj : st.j + n ≤ st.buf.length) (hl : ∀ m, m < 8 → load64 st.bin m < 2 ^ 64) :
    ((List.range n).foldl bin2rc_step st).j = st.j + n ∧
    ((List.range n).foldl bin2rc_step st).bin.length = st.bin.length ∧
    ((List.range n).foldl bin2rc_step st).buf.length = st.buf.length ∧
    (∀ m, load64 ((List.range n).foldl bin2rc_step st).bin m
        = if m < n then load64 st.bin m / 10 else load64 st.bin m) ∧
    (∀ p, ((List.range n).foldl bin2rc_step st).buf[p]?
        = if st.j ≤ p ∧ p < st.j + n then some (48 + load64 st.bin (p - st.j) % 10)
          else st.buf[p]?) := by
  induction n with
  | zero =>
    refine ⟨rfl, rfl, rfl, fun m => by simp, fun p => ?_⟩
    rw [if_neg (by omega)]
    rfl
  | succ n ih =>
    obtain ⟨ihj, ihlen, ihbuf, ihl, ihb⟩ := ih (by omega) (by omega)
    rw [List.range_succ, List.foldl_append]
    simp only [List.foldl_cons, List.foldl_nil]
    generalize (List.range n).foldl bin2rc_step st = s at ihj ihlen ihbuf ihl ihb
    have hk : 8 * n + 8 ≤ s.bin.length := by omega
    have hcur : load64 s.bin n = load64 st.bin n := by rw [ihl n, if_neg (by omega)]
    refine ⟨?_, ?_, ?_, ?_, ?_⟩
    · simp [bin2rc_step, ihj]; omega
    · simp [bin2rc_step, length_store64, ihlen]
    · simp [bin2rc_step, ihbuf]
    · intro m
      simp only [bin2rc_step]
      by_cases hm : m = n
      · subst hm
        rw [load64_store64_same _ _ _ hk, hcur, if_pos (by omega)]
        have := hl m (by omega)
        omega
      · rw [load64_store64_other _ _ _ _ hk hm, ihl m]
        by_cases hlt : m < n
        · rw [if_pos hlt, if_pos (by omega)]
        · rw [if_neg hlt, if_neg (by omega)]
    · intro p
      simp only [bin2rc_step, List.getElem?_set, ihj, ihbuf, hcur]
      by_cases hp : st.j + n = p
      · subst hp
        rw [if_pos rfl, if_pos (by omega), if_pos (by omega)]
        simp
      · rw [if_neg hp, ihb p]
        by_cases hq : st.j ≤ p ∧ p < st.j + n
        · rw [if_pos hq, if_pos (by omega)]
        · rw [if_neg hq, if_neg (by omega)]

theorem bin2rc_round_spec (st : RcState) (hlen : 64 ≤ st.bin.length)
    (hj : st.j + 8 ≤ st.buf.length) (hl : ∀ m, m < 8 → load64 st.bin m < 2 ^ 64) :
    (bin2rc_round st).j = st.j + 8 ∧
    (bin2rc_round st).bin.length = st.bin.length ∧
    (bin2rc_round st).buf.length = st.buf.length ∧
    (∀ m, m < 8 → load64 (bin2rc_round st).bin m = load64 st.bin m / 10) ∧
    (∀ p, (bin2rc_round st).buf[p]?
        = if st.j ≤ p ∧ p < st.j + 8 then some (48 + load64 st.bin (p - st.j) % 10)
          else st.buf[p]?) := by
  obtain ⟨h1, h2, h3, h4, h5⟩ := bin2rc_steps 8 (le_refl 8) st hlen hj hl
  refine ⟨h1, h2, h3, fun m hm => ?_, h5⟩
  rw [bin2rc_round, h4 m, if_pos hm]

/-- State after `r` rounds started on `buf`, `bin` with the index at 0. -/
theorem bin2rc_rounds (r : Nat) (buf bin : List Nat) (hlen : 64 ≤ bin.length)
    (hbuf : 8 * r ≤ buf.length) (hl : ∀ m, m < 8 → load64 bin m < 2 ^ 64) :
    ((List.range r).foldl (fun st _ => bin2rc_round st) ⟨buf, bin, 0⟩).j = 8 * r ∧
    ((List.range r).foldl (fun st _ => bin2rc_round st) ⟨buf, bin, 0⟩).bin.length
      = bin.length ∧
    ((List.range r).foldl (fun st _ => bin2rc_round st) ⟨buf, bin, 0⟩).buf.length
      = buf.length ∧
    (∀ m, m < 8 →
      load64 ((List.range r).foldl (fun st _ => bin2rc_round st) ⟨buf, bin, 0⟩).bin m
        = load64 bin m / 10 ^ r) ∧
    (∀ p, ((List.range r).foldl (fun st _ => bin2rc_round st) ⟨buf, bin, 0⟩).buf[p]?
        = if p < 8 * r then some (48 + load64 bin (p % 8) / 10 ^ (p / 8) % 10)
          else buf[p]?) := by
  induction r with
  | zero => simp
  | succ r ih =>
    obtain ⟨ihj, ihlen, ihbuf, ihl, ihb⟩ := ih (by omega)
    rw [List.range_succ, List.foldl_append]
    simp only [List.foldl_cons, List.foldl_nil]
    generalize (List.range r).foldl (fun st _ => bin2rc_round st) ⟨buf, bin, 0⟩ = s
      at ihj ihlen ihbuf ihl ihb
    have hl' : ∀ m, m < 8 → load64 s.bin m < 2 ^ 64 := by
      intro m hm
      rw [ihl m hm]
      exact lt_of_le_of_lt (Nat.div_le_self _ _) (hl m hm)
    obtain ⟨h1, h2, h3, h4, h5⟩ := bin2rc_round_spec s (by omega) (by omega) hl'
    refine ⟨by omega, by omega, by omega, fun m hm => ?_, fun p => ?_⟩
    · rw [h4 m hm, ihl m hm, Nat.div_div_eq_div_mul, pow_succ]
    · rw [h5 p, ihb p, ihj]
      by_cases hp : 8 * r ≤ p ∧ p < 8 * r + 8
      · have e1 : p - 8 * r = p % 8 := by omega
        have e2 : p / 8 = r := by omega
        rw [if_pos hp, if_pos (by omega), e1, ihl _ (by omega), e2]
      · rw [if_neg hp]
        by_cases hq : p < 8 * r
        · rw [if_pos hq, if_pos (by omega)]
        · rw [if_neg hq, if_neg (by omega)]

theorem bin2rc_buf (buf bin : List Nat) (hbin : bin.length = 64) (hbytes : ∀ b ∈ bin, b < 256)
    (hbuf : 25 ≤ buf.length) :
    (bin2rc buf bin).1
      = (List.range 24).map (fun p => 48 + load64 bin (p % 8) / 10 ^ (p / 8) % 10)
          ++ 0 :: buf.drop 25 := by
  obtain ⟨hj, -, hlen, -, hb⟩ := bin2rc_rounds 3 buf bin (by omega) (by omega)
    (fun m _ => load64_lt bin m hbytes)
  unfold bin2rc
  dsimp only
  generalize (List.range 3).foldl (fun st _ => bin2rc_round st) ⟨buf, bin, 0⟩ = s
    at hj hlen hb
  apply List.ext_getElem?
  intro p
  rw [hj, List.getElem?_set, hlen]
  by_cases h24 : 24 = p
  · subst h24
    rw [if_pos rfl, if_pos (by omega)]
    rw [List.getElem?_append_right (by simp)]
    simp
  · rw [if_neg h24, hb p]
    by_cases hp : p < 8 * 3
    · rw [if_pos hp, List.getElem?_append_left (by simpa using hp)]
      simp [List.getElem?_range, show p < 24 by omega]
    · rw [if_neg hp, List.getElem?_append_right (by simp; omega)]
      obtain ⟨t, rfl⟩ : ∃ t, p = 25 + t := ⟨p - 25, by omega⟩
      have e : 25 + t - 24 = t + 1 := by omega
      simp [e, List.getElem?_drop]

/-- C5: for a 64-byte seed with little-endian lanes `L k = load64 bin k`,
`bin2rc` writes 24 characters and a NUL after them and nothing else; the
character at index `8 * i + k` is the digit `L k / 10 ^ i % 10`, and every
one of the 24 characters is a decimal digit (`'0'` = 48 to `'9'` = 57). -/
theorem bin2rc_digits (buf bin : List Nat) (hbin : bin.length = 64)
    (hbytes : ∀ b ∈ bin, b < 256) (hbuf : 25 ≤ buf.length) :
    (bin2rc buf bin).1
      = (List.range 24).map (fun p => 48 + load64 bin (p % 8) / 10 ^ (p / 8) % 10)
          ++ 0 :: buf.drop 25 ∧
    (∀ i k, i < 3 → k < 8 →
      (bin2rc buf bin).1[8 * i + k]? = some (48 + load64 bin k / 10 ^ i % 10)) ∧
    (∀ p, p < 24 → ∃ d, d < 10 ∧ (bin2rc buf bin).1[p]? = some (48 + d)) ∧
    (bin2rc buf bin).1[24]? = some 0 := by
  have hmain := bin2rc_buf buf bin hbin hbytes hbuf
  have hget : ∀ p, p < 24 →
      (bin2rc buf bin).1[p]? = some (48 + load64 bin (p % 8) / 10 ^ (p / 8) % 10) := by
    intro p hp
    rw [hmain, List.getElem?_append_left (by simpa using hp)]
    simp [List.getElem?_range, hp]
  refine ⟨hmain, ?_, ?_, ?_⟩
  · intro i k hi hk
    have e1 : (8 * i + k) % 8 = k := by omega
    have e2 : (8 * i + k) / 8 = i := by omega
    rw [hget (8 * i + k) (by omega), e1, e2]
  · intro p hp
    exact ⟨_, Nat.mod_lt _ (by decide), hget p hp⟩
  · rw [hmain, List.getElem?_append_right (by simp)]
    simp

theorem bin2rc_digits_witness :
    (bin2rc (List.replicate 30 1) sampleSeed).1
      = (List.range 24).map (fun p => 48 + load64 sampleSeed (p % 8) / 10 ^ (p / 8) % 10)
          ++ 0 :: (List.replicate 30 1).drop 25 ∧
    (∀ i k, i < 3 → k < 8 →
      (bin2rc (List.replicate 30 1) sampleSeed).1[8 * i + k]?
        = some (48 + load64 sampleSeed k / 10 ^ i % 10)) ∧
    (∀ p, p < 24 → ∃ d, d < 10 ∧ (bin2rc (List.replicate 30 1) sampleSeed).1[p]? = some (48 + d)) ∧
    (bin2rc (List.replicate 30 1) sampleSeed).1[24]? = some 0 :=
  bin2rc_digits (List.replicate 30 1) sampleSeed (by decide) (by decide) (by decide)

/-! ## Theorems: previous identity unlock keys -/

/-- C9: `sqrl_user_rekey` on an identity with current IUK `e` and previous
list `l` (newest first, at most four keys, slots filled from PIUK0) leaves
the previous list `(e :: l).take 4`, so `[a, b, c, d]` becomes `[e, a, b, c]`;
and after five rekeys PIUK0..PIUK3 hold the IUKs of the 4th, 3rd, 2nd and
1st rekey. -/
theorem sqrl_user_rekey_history (D : KeyDerivation) (u : Sqrl_User)
    (hu : slotsContiguous u = true) (fresh k1 k2 k3 k4 k5 : List Nat) :
    (sqrl_user_rekey D u fresh).iuk = fresh ∧
    previousKeys (sqrl_user_rekey D u fresh) = (u.iuk :: previousKeys u).take 4 ∧
    slotsContiguous (sqrl_user_rekey D u fresh) = true ∧
    (∀ a b c d, previousKeys u = [a, b, c, d] →
      previousKeys (sqrl_user_rekey D u fresh) = [u.iuk, a, b, c]) ∧
    (∀ u5, u5 = sqrl_user_rekey D (sqrl_user_rekey D (sqrl_user_rekey D
          (sqrl_user_rekey D (sqrl_user_rekey D u k1) k2) k3) k4) k5 →
      sqrl_user_key u5 .KEY_IUK = some k5 ∧
      sqrl_user_key u5 .KEY_PIUK0 = some k4 ∧ sqrl_user_key u5 .KEY_PIUK1 = some k3 ∧
      sqrl_user_key u5 .KEY_PIUK2 = some k2 ∧ sqrl_user_key u5 .KEY_PIUK3 = some k1) := by
  have hprev : previousKeys (sqrl_user_rekey D u fresh) = (u.iuk :: previousKeys u).take 4 := by
    obtain ⟨iuk, ilk, imk, p0, p1, p2, p3⟩ := u
    cases p0 <;> cases p1 <;> cases p2 <;> cases p3 <;>
      simp_all [slotsContiguous, previousKeys, sqrl_user_rekey]
  refine ⟨rfl, hprev, ?_, ?_, ?_⟩
  · obtain ⟨iuk, ilk, imk, p0, p1, p2, p3⟩ := u
    cases p0 <;> cases p1 <;> cases p2 <;> cases p3 <;>
      simp_all [slotsContiguous, sqrl_user_rekey]
  · intro a b c d h
    rw [hprev, h]
    rfl
  · intro u5 h5
    subst h5
    exact ⟨rfl, rfl, rfl, rfl, rfl⟩

theorem sqrl_user_rekey_history_witness :
    (sqrl_user_rekey sampleDerivation sampleUser [9]).iuk = [9] ∧
    previousKeys (sqrl_user_rekey sampleDerivation sampleUser [9])
      = (sampleUser.iuk :: previousKeys sampleUser).take 4 ∧
    slotsContiguous (sqrl_user_rekey sampleDerivation sampleUser [9]) = true ∧
    (∀ a b c d, previousKeys sampleUser = [a, b, c, d] →
      previousKeys (sqrl_user_rekey sampleDerivation sampleUser [9])
        = [sampleUser.iuk, a, b, c]) ∧
    (∀ u5, u5 = sqrl_user_rekey sampleDerivation (sqrl_user_rekey sampleDerivation
          (sqrl_user_rekey sampleDerivation (sqrl_user_rekey sampleDerivation
            (sqrl_user_rekey sampleDerivation sampleUser [1]) [2]) [3]) [4]) [5] →
      sqrl_user_key u5 .KEY_IUK = some [5] ∧
      sqrl_user_key u5 .KEY_PIUK0 = some [4] ∧ sqrl_user_key u5 .KEY_PIUK1 = some [3] ∧
      sqrl_user_key u5 .KEY_PIUK2 = some [2] ∧ sqrl_user_key u5 .KEY_PIUK3 = some [1]) :=
  sqrl_user_rekey_history sampleDerivation sampleUser (by decide) [9] [1] [2] [3] [4] [5]

/-! ## Theorems: rescue-code collisions -/

set_option exponentiation.threshold 2048

theorem seedBytes_length (s : Seed) : (seedBytes s).length = 64 := by
  simp [seedBytes]

theorem seedBytes_lt (s : Seed) : ∀ b ∈ seedBytes s, b < 256 := by
  intro b hb
  simp only [seedBytes, List.mem_ofFn, Set.mem_range] at hb
  obtain ⟨i, rfl⟩ := hb
  exact (s i).isLt

theorem seedBytes_getD (s : Seed) (i : Fin 64) : (seedBytes s).getD i.val 0 = (s i).val := by
  have h : i.val < (seedBytes s).length := by simp [seedBytes]
  rw [List.getD_eq_getElem _ _ h]
  simp only [seedBytes, List.getElem_ofFn]

theorem rescueCode_eq (s : Seed) :
    rescueCode s
      = (List.range 24).map (fun p => 48 + load64 (seedBytes s) (p % 8) / 10 ^ (p / 8) % 10) := by
  rw [rescueCode, bin2rc_buf _ _ (seedBytes_length s) (seedBytes_lt s) (by simp)]
  exact List.take_left' (by simp)

theorem rescueCode_eq_iff (a b : Seed) :
    rescueCode a = rescueCode b ↔
      ∀ k, k < 8 → load64 (seedBytes a) k % 1000 = load64 (seedBytes b) k % 1000 := by
  rw [rescueCode_eq, rescueCode_eq, List.map_inj_left]
  constructor
  · intro h k hk
    have h0 := h k (by simp; omega)
    have h1 := h (8 + k) (by simp; omega)
    have h2 := h (16 + k) (by simp; omega)
    have e0 : k % 8 = k := by omega
    have e1 : (8 + k) % 8 = k := by omega
    have e2 : (16 + k) % 8 = k := by omega
    have d0 : k / 8 = 0 := by omega
    have d1 : (8 + k) / 8 = 1 := by omega
    have d2 : (16 + k) / 8 = 2 := by omega
    simp only [e0, e1, e2, d0, d1, d2] at h0 h1 h2
    norm_num at h0 h1 h2
    omega
  · intro h p hp
    simp only [List.mem_range] at hp
    have hk := h (p % 8) (by omega)
    have hd : p / 8 = 0 ∨ p / 8 = 1 ∨ p / 8 = 2 := by omega
    rcases hd with hd | hd | hd <;> rw [hd] <;> norm_num <;> omega

theorem load64_byte (bin : List Nat) (hb : ∀ b ∈ bin, b < 256) (k j : Nat) (hj : j < 8) :
    load64 bin k / 256 ^ j % 256 = bin.getD (8 * k + j) 0 := by
  have h : ∀ p, bin.getD p 0 < 256 := by
    intro p
    rw [List.getD_eq_getElem?_getD]
    cases hp : bin[p]? with
    | none => simp
    | some b => exact hb b (List.getElem?_mem hp)
  have h0 := h (8 * k + 0); have h1 := h (8 * k + 1); have h2 := h (8 * k + 2)
  have h3 := h (8 * k + 3); have h4 := h (8 * k + 4); have h5 := h (8 * k + 5)
  have h6 := h (8 * k + 6); have h7 := h (8 * k + 7)
  interval_cases j <;>
  · simp only [load64, range8, List.map, List.sum_cons, List.sum_nil]
    generalize bin.getD (8 * k + 0) 0 = x0 at h0 ⊢
    generalize bin.getD (8 * k + 1) 0 = x1 at h1 ⊢
    generalize bin.getD (8 * k + 2) 0 = x2 at h2 ⊢
    generalize bin.getD (8 * k + 3) 0 = x3 at h3 ⊢
    generalize bin.getD (8 * k + 4) 0 = x4 at h4 ⊢
    generalize bin.getD (8 * k + 5) 0 = x5 at h5 ⊢
    generalize bin.getD (8 * k + 6) 0 = x6 at h6 ⊢
    generalize bin.getD (8 * k + 7) 0 = x7 at h7 ⊢
    norm_num
    omega

theorem laneMap_injective : Function.Injective laneMap := by
  intro a b hab
  funext i
  apply Fin.ext
  have hk : i.val / 8 < 8 := by omega
  have hl : load64 (seedBytes a) (i.val / 8) = load64 (seedBytes b) (i.val / 8) := by
    have := congrArg (fun f => (f ⟨i.val / 8, hk⟩).val) hab
    simp only [laneMap] at this
    rwa [Nat.mod_eq_of_lt (load64_lt _ _ (seedBytes_lt a)),
      Nat.mod_eq_of_lt (load64_lt _ _ (seedBytes_lt b))] at this
  have e : 8 * (i.val / 8) + i.val % 8 = i.val := by omega
  have ha := load64_byte (seedBytes a) (seedBytes_lt a) (i.val / 8) (i.val % 8) (by omega)
  have hb := load64_byte (seedBytes b) (seedBytes_lt b) (i.val / 8) (i.val % 8) (by omega)
  rw [e, seedBytes_getD] at ha hb
  rw [← ha, ← hb, hl]

theorem laneMap_bijective : Function.Bijective laneMap := by
  rw [Fintype.bijective_iff_injective_and_card]
  refine ⟨laneMap_injective, ?_⟩
  simp only [Fintype.card_fun, Fintype.card_fin]
  norm_num

theorem card_fin_filter (n : Nat) (p : Nat → Prop) [DecidablePred p] :
    (Finset.univ.filter (fun u : Fin n => p u.val)).card
      = ((Finset.range n).filter p).card := by
  apply Finset.card_bij (fun u _ => u.val)
  · intro u hu
    simp only [Finset.mem_filter, Finset.mem_univ, true_and] at hu
    simp only [Finset.mem_filter, Finset.mem_range]
    exact ⟨u.isLt, hu⟩
  · intro a _ b _ h
    exact Fin.ext h
  · intro b hb
    simp only [Finset.mem_filter, Finset.mem_range] at hb
    exact ⟨⟨b, hb.1⟩, by simp [hb.2], rfl⟩

theorem card_residue (r : Nat) (hr : r < 1000) :
    (Finset.univ.filter (fun u : Fin (2 ^ 64) => u.val % 1000 = r)).card
      = 2 ^ 64 / 1000 + if r < 616 then 1 else 0 := by
  rw [card_fin_filter (2 ^ 64) (fun x => x % 1000 = r)]
  have h := Nat.count_modEq_card (r := 1000) (b := 2 ^ 64) (by decide) r
  rw [Nat.count_eq_card_filter_range] at h
  have e : (Finset.range (2 ^ 64)).filter (fun x => x % 1000 = r)
      = (Finset.range (2 ^ 64)).filter (fun x => x ≡ r [MOD 1000]) := by
    apply Finset.filter_congr
    intro x _
    simp only [Nat.ModEq, Nat.mod_eq_of_lt hr]
  rw [e, h, Nat.mod_eq_of_lt hr]
  norm_num

theorem card_lane_pairs :
    (Finset.univ.filter
        (fun p : Fin (2 ^ 64) × Fin (2 ^ 64) => p.1.val % 1000 = p.2.val % 1000)).card
      = pairsPerLane := by
  rw [Finset.card_eq_sum_card_fiberwise (f := fun p : Fin (2 ^ 64) × Fin (2 ^ 64) => p.1.val % 1000)
    (t := Finset.range 1000) (fun p _ => Finset.mem_range.mpr (Nat.mod_lt _ (by decide)))]
  have hf : ∀ r ∈ Finset.range 1000,
      ((Finset.univ.filter
        (fun p : Fin (2 ^ 64) × Fin (2 ^ 64) => p.1.val % 1000 = p.2.val % 1000)).filter
          (fun p => p.1.val % 1000 = r)).card
        = (2 ^ 64 / 1000 + if r < 616 then 1 else 0) ^ 2 := by
    intro r hr
    have hr' : r < 1000 := Finset.mem_range.mp hr
    have e : (Finset.univ.filter
        (fun p : Fin (2 ^ 64) × Fin (2 ^ 64) => p.1.val % 1000 = p.2.val % 1000)).filter
          (fun p => p.1.val % 1000 = r)
        = (Finset.univ.filter (fun u : Fin (2 ^ 64) => u.val % 1000 = r)) ×ˢ
          (Finset.univ.filter (fun u : Fin (2 ^ 64) => u.val % 1000 = r)) := by
      ext p
      simp only [Finset.mem_filter, Finset.mem_univ, true_and, Finset.mem_product]
      constructor
      · rintro ⟨h1, h2⟩
        exact ⟨h2, by rw [← h1, h2]⟩
      · rintro ⟨h1, h2⟩
        exact ⟨by rw [h1, h2], h1⟩
    rw [e, Finset.card_product, card_residue r hr', sq]
  rw [Finset.sum_congr rfl hf, ← Finset.sum_range_add_sum_Ico _ (show 616 ≤ 1000 by decide)]
  have h1 : ∀ r ∈ Finset.range 616,
      (2 ^ 64 / 1000 + if r < 616 then 1 else 0) ^ 2 = (2 ^ 64 / 1000 + 1) ^ 2 := by
    intro r hr
    rw [if_pos (Finset.mem_range.mp hr)]
  have h2 : ∀ r ∈ Finset.Ico 616 1000,
      (2 ^ 64 / 1000 + if r < 616 then 1 else 0) ^ 2 = (2 ^ 64 / 1000) ^ 2 := by
    intro r hr
    rw [if_neg (by have := (Finset.mem_Ico.mp hr).1; omega)]
    rfl
  rw [Finset.sum_congr rfl h1, Finset.sum_congr rfl h2, Finset.sum_const, Finset.sum_const,
    Finset.card_range, Nat.card_Ico]
  simp only [smul_eq_mul, pairsPerLane]

theorem laneMap_val (s : Seed) (k : Fin 8) : (laneMap s k).val = load64 (seedBytes s) k.val :=
  Nat.mod_eq_of_lt (load64_lt _ _ (seedBytes_lt s))

theorem rescueCode_eq_iff_laneMap (a b : Seed) :
    rescueCode a = rescueCode b ↔
      ∀ k : Fin 8, (laneMap a k).val % 1000 = (laneMap b k).val % 1000 := by
  rw [rescueCode_eq_iff]
  constructor
  · intro h k
    rw [laneMap_val, laneMap_val]
    exact h k.val k.isLt
  · intro h k hk
    have := h ⟨k, hk⟩
    rwa [laneMap_val, laneMap_val] at this

/-- The colliding pairs of seeds correspond to the families, one entry per
lane, of pairs of 64-bit values with equal residues modulo 1000. -/
theorem collidingPairs_equiv :
    Nonempty ({p : Seed × Seed // rescueCode p.1 = rescueCode p.2} ≃
      (Fin 8 → {r : Fin (2 ^ 64) × Fin (2 ^ 64) // r.1.val % 1000 = r.2.val % 1000})) :=
  ⟨((Equiv.prodCongr (Equiv.ofBijective laneMap laneMap_bijective)
      (Equiv.ofBijective laneMap laneMap_bijective)).subtypeEquiv
    (p := fun p : Seed × Seed => rescueCode p.1 = rescueCode p.2)
    (q := fun q : (Fin 8 → Fin (2 ^ 64)) × (Fin 8 → Fin (2 ^ 64)) =>
      ∀ k, (q.1 k).val % 1000 = (q.2 k).val % 1000)
    (fun p => rescueCode_eq_iff_laneMap p.1 p.2)).trans
  (((Equiv.arrowProdEquivProdArrow (Fin (2 ^ 64)) (Fin (2 ^ 64)) (Fin 8)).symm.subtypeEquiv
    (p := fun q : (Fin 8 → Fin (2 ^ 64)) × (Fin 8 → Fin (2 ^ 64)) =>
      ∀ k, (q.1 k).val % 1000 = (q.2 k).val % 1000)
    (q := fun f : Fin 8 → Fin (2 ^ 64) × Fin (2 ^ 64) =>
      ∀ k, (f k).1.val % 1000 = (f k).2.val % 1000)
    (fun _ => Iff.rfl)).trans
  (Equiv.subtypePiEquivPi
    (p := fun (_ : Fin 8) (r : Fin (2 ^ 64) × Fin (2 ^ 64)) => r.1.val % 1000 = r.2.val % 1000)))⟩

theorem collidingPairs_card : collidingPairs.card = pairsPerLane ^ 8 := by
  obtain ⟨e⟩ := collidingPairs_equiv
  rw [collidingPairs, ← Fintype.card_subtype, Fintype.card_congr e,
    Fintype.card_fun, Fintype.card_fin, Fintype.card_subtype, card_lane_pairs]

theorem pairsPerLane_lower : 2 ^ 1024 < pairsPerLane ^ 8 * 10 ^ 24 := by
  norm_num [pairsPerLane]

theorem pairsPerLane_upper : pairsPerLane ^ 8 * 10 ^ 24 * 10 ^ 32 ≤ 2 ^ 1024 * (10 ^ 32 + 1) := by
  norm_num [pairsPerLane]

theorem collisionProbability_eq :
    collisionProbability = ((pairsPerLane ^ 8 : Nat) : ℚ) / 2 ^ 1024 := by
  rw [collisionProbability, collidingPairs_card]

/-- C10 as stated fails: the probability that two independent uniform seeds
get the same rescue code is not at most `10⁻²⁴`. -/
theorem collisionProbability_not_le : ¬ (collisionProbability ≤ 1 / 10 ^ 24) := by
  rw [collisionProbability_eq, not_le, div_lt_div_iff₀ (by positivity) (by positivity), one_mul]
  exact_mod_cast pairsPerLane_lower

/-- C10, amended: the colliding pairs of seeds number exactly
`(616 * (q + 1) ^ 2 + 384 * q ^ 2) ^ 8` with `q = 2 ^ 64 / 1000`, so the
collision probability is above `10⁻²⁴` and at most `10⁻²⁴ * (1 + 10⁻³²)`. -/
theorem collisionProbability_bounds :
    collidingPairs.card = (616 * (2 ^ 64 / 1000 + 1) ^ 2 + 384 * (2 ^ 64 / 1000) ^ 2) ^ 8 ∧
    1 / 10 ^ 24 < collisionProbability ∧
    collisionProbability ≤ 1 / 10 ^ 24 * (1 + 1 / 10 ^ 32) := by
  refine ⟨collidingPairs_card, ?_, ?_⟩
  · rw [collisionProbability_eq, div_lt_div_iff₀ (by positivity) (by positivity), one_mul]
    exact_mod_cast pairsPerLane_lower
  · have h : (1 : ℚ) / 10 ^ 24 * (1 + 1 / 10 ^ 32) = (10 ^ 32 + 1) / (10 ^ 24 * 10 ^ 32) := by
      field_simp
    rw [collisionProbability_eq, h, div_le_div_iff₀ (by positivity) (by positivity)]
    have := pairsPerLane_upper
    have h2 : pairsPerLane ^ 8 * (10 ^ 24 * 10 ^ 32) ≤ (10 ^ 32 + 1) * 2 ^ 1024 := by
      rw [← mul_assoc, mul_comm (10 ^ 32 + 1)]
      exact this
    exact_mod_cast h2

/-! ## Theorems: the seed buffer after `bin2rc` -/

theorem bin2rc_steps_tail (n : Nat) (hn : n ≤ 8) (st : RcState) (hlen : 64 ≤ st.bin.length) :
    ((List.range n).foldl bin2rc_step st).bin.length = st.bin.length ∧
    ∀ p, 64 ≤ p → ((List.range n).foldl bin2rc_step st).bin[p]? = st.bin[p]? := by
  induction n with
  | zero => exact ⟨rfl, fun _ _ => rfl⟩
  | succ n ih =>
    obtain ⟨ihlen, iht⟩ := ih (by omega)
    rw [List.range_succ, List.foldl_append]
    simp only [List.foldl_cons, List.foldl_nil]
    generalize (List.range n).foldl bin2rc_step st = s at ihlen iht
    refine ⟨by simp [bin2rc_step, length_store64, ihlen], fun p hp => ?_⟩
    simp only [bin2rc_step]
    rw [getElem?_store64 _ _ _ _ (by omega), if_neg (by omega)]
    exact iht p hp

theorem bin2rc_rounds_tail (r : Nat) (st : RcState) (hlen : 64 ≤ st.bin.length) :
    ((List.range r).foldl (fun st _ => bin2rc_round st) st).bin.length = st.bin.length ∧
    ∀ p, 64 ≤ p →
      ((List.range r).foldl (fun st _ => bin2rc_round st) st).bin[p]? = st.bin[p]? := by
  induction r with
  | zero => exact ⟨rfl, fun _ _ => rfl⟩
  | succ r ih =>
    obtain ⟨ihlen, iht⟩ := ih
    rw [List.range_succ, List.foldl_append]
    simp only [List.foldl_cons, List.foldl_nil]
    generalize (List.range r).foldl (fun st _ => bin2rc_round st) st = s at ihlen iht
    obtain ⟨h1, h2⟩ := bin2rc_steps_tail 8 (le_refl 8) s (by omega)
    refine ⟨by rw [bin2rc_round, h1, ihlen], fun p hp => ?_⟩
    rw [bin2rc_round, h2 p hp, iht p hp]

/-- C13: `bin2rc` overwrites its seed: for a seed buffer whose first 64 bytes
form the lanes `L k = load64 bin k`, lane `k` holds `L k / 1000` afterwards
(so the buffer differs from the seed as soon as one lane is not 0); both
buffers keep their length, the bytes of `bin` from offset 64 on and the bytes
of `buf` from offset 25 on are what they were. -/
theorem bin2rc_seed_after (buf bin : List Nat) (hbin : 64 ≤ bin.length)
    (hbytes : ∀ b ∈ bin, b < 256) (hbuf : 25 ≤ buf.length) :
    (∀ k, k < 8 → load64 (bin2rc buf bin).2 k = load64 bin k / 1000) ∧
    ((∃ k, k < 8 ∧ load64 bin k ≠ 0) → (bin2rc buf bin).2 ≠ bin) ∧
    (bin2rc buf bin).2.length = bin.length ∧
    (bin2rc buf bin).2.drop 64 = bin.drop 64 ∧
    (bin2rc buf bin).1.length = buf.length ∧
    (bin2rc buf bin).1.drop 25 = buf.drop 25 := by
  obtain ⟨hj, -, hlen, hl, hb⟩ := bin2rc_rounds 3 buf bin hbin (by omega)
    (fun m _ => load64_lt bin m hbytes)
  obtain ⟨htl, htt⟩ := bin2rc_rounds_tail 3 ⟨buf, bin, 0⟩ hbin
  have hlanes : ∀ k, k < 8 → load64 (bin2rc buf bin).2 k = load64 bin k / 1000 := by
    intro k hk
    have := hl k hk
    simpa [bin2rc] using this
  refine ⟨hlanes, ?_, ?_, ?_, ?_, ?_⟩
  · rintro ⟨k, hk, hne⟩ heq
    have h := hlanes k hk
    rw [heq] at h
    have hlt : load64 bin k / 1000 < load64 bin k :=
      Nat.div_lt_self (Nat.pos_of_ne_zero hne) (by decide)
    omega
  · simpa [bin2rc] using htl
  · apply List.ext_getElem?
    intro p
    rw [List.getElem?_drop, List.getElem?_drop]
    simpa [bin2rc] using htt (64 + p) (by omega)
  · simp [bin2rc, hlen]
  · apply List.ext_getElem?
    intro p
    rw [List.getElem?_drop, List.getElem?_drop]
    unfold bin2rc
    dsimp only
    rw [List.getElem?_set, hj, if_neg (by omega), hb, if_neg (by omega)]

theorem bin2rc_seed_after_witness :
    (∀ k, k < 8 → load64 (bin2rc (List.replicate 30 1) sampleSeed).2 k
      = load64 sampleSeed k / 1000) ∧
    ((∃ k, k < 8 ∧ load64 sampleSeed k ≠ 0) →
      (bin2rc (List.replicate 30 1) sampleSeed).2 ≠ sampleSeed) ∧
    (bin2rc (List.replicate 30 1) sampleSeed).2.length = sampleSeed.length ∧
    (bin2rc (List.replicate 30 1) sampleSeed).2.drop 64 = sampleSeed.drop 64 ∧
    (bin2rc (List.replicate 30 1) sampleSeed).1.length = (List.replicate 30 1).length ∧
    (bin2rc (List.replicate 30 1) sampleSeed).1.drop 25 = (List.replicate 30 1).drop 25 :=
  bin2rc_seed_after (List.replicate 30 1) sampleSeed (by decide) (by decide) (by decide)

/-! ## Theorems: sleep interval and extraction -/

theorem increment_keeps_interval (pool : sqrl_entropy_pool σ) (amount : Int)
    (hamount : 1 ≤ amount) (hsum : pool.estimated_entropy + amount < 2 ^ 31)
    (hest : 0 ≤ pool.estimated_entropy) (htarget : 0 < pool.entropy_target)
    (hiv : (pool.sleeptime = SQRL_NIX_ENTROPY_REPEAT_SLOW ∧
          pool.entropy_target ≤ pool.estimated_entropy) ∨
        (pool.sleeptime = SQRL_NIX_ENTROPY_REPEAT_FAST ∧
          pool.estimated_entropy < pool.entropy_target)) :
    (sqrl_increment_entropy pool amount).initialized = pool.initialized ∧
    0 ≤ (sqrl_increment_entropy pool amount).estimated_entropy ∧
    0 < (sqrl_increment_entropy pool amount).entropy_target ∧
    (((sqrl_increment_entropy pool amount).sleeptime = SQRL_NIX_ENTROPY_REPEAT_SLOW ∧
        (sqrl_increment_entropy pool amount).entropy_target
          ≤ (sqrl_increment_entropy pool amount).estimated_entropy) ∨
      ((sqrl_increment_entropy pool amount).sleeptime = SQRL_NIX_ENTROPY_REPEAT_FAST ∧
        (sqrl_increment_entropy pool amount).estimated_entropy
          < (sqrl_increment_entropy pool amount).entropy_target)) := by
  have hw : wrapInt (pool.estimated_entropy + amount) = pool.estimated_entropy + amount :=
    wrapInt_of_range _ (by omega) hsum
  unfold sqrl_increment_entropy
  dsimp only
  rw [hw]
  by_cases h : pool.estimated_entropy + amount ≥ pool.entropy_target
  · rw [if_pos h]
    exact ⟨rfl, by dsimp only; omega, htarget, Or.inl ⟨rfl, h⟩⟩
  · rw [if_neg h]
    refine ⟨rfl, by dsimp only; omega, htarget, ?_⟩
    rcases hiv with ⟨_, h2⟩ | ⟨h1, _⟩
    · omega
    · exact Or.inr ⟨h1, by dsimp only; omega⟩

theorem intervalInvariant_create (P : Primitives σ) (sample : List Nat) :
    intervalInvariant (sqrl_entropy_create P sample) := by
  intro _
  exact ⟨le_refl _, by simp [sqrl_entropy_create, SQRL_ENTROPY_TARGET],
    Or.inr ⟨rfl, by simp [sqrl_entropy_create, SQRL_ENTROPY_TARGET]⟩⟩

theorem intervalInvariant_update (P : Primitives σ) (pool : sqrl_entropy_pool σ)
    (ffe : List Nat) (hrange : pool.estimated_entropy + 1 < 2 ^ 31)
    (h : intervalInvariant pool) : intervalInvariant (sqrl_entropy_update P pool ffe) := by
  intro hinit
  unfold sqrl_entropy_update at hinit ⊢
  dsimp only at hinit ⊢
  have hi : pool.initialized = true := by
    unfold sqrl_increment_entropy at hinit
    dsimp only at hinit
    split at hinit <;> exact hinit
  obtain ⟨h0, h1, h2⟩ := h hi
  exact (increment_keeps_interval
    { pool with state := P.crypto_hash_sha512_update pool.state ffe } 1 (le_refl 1)
    hrange h0 h1 h2).2

theorem add_amount_eq (n : Nat) (h : 1 + (n : Int) / 64 < 2 ^ 31) :
    wrapInt ((wrapSize (1 + wrapSize n / 64) : Nat) : Int) = 1 + (n : Int) / 64 := by
  have hn : n < 2 ^ 64 := by omega
  have h1 : wrapSize n = n := Nat.mod_eq_of_lt hn
  have h2 : wrapSize (1 + n / 64) = 1 + n / 64 := Nat.mod_eq_of_lt (by omega)
  have h3 : ((1 + n / 64 : Nat) : Int) = 1 + (n : Int) / 64 := by
    push_cast
    rfl
  rw [h1, h2, h3]
  exact wrapInt_of_range _ (by omega) h

theorem intervalInvariant_add (P : Primitives σ) (pool : sqrl_entropy_pool σ)
    (msg ffe : List Nat) (allocOk : Bool)
    (hamount : 1 + (msg.length : Int) / 64 < 2 ^ 31)
    (hsum : pool.estimated_entropy + (1 + (msg.length : Int) / 64) < 2 ^ 31)
    (h : intervalInvariant pool) :
    intervalInvariant (sqrl_entropy_add P pool msg ffe allocOk) := by
  unfold sqrl_entropy_add
  by_cases hi : pool.initialized = true
  · obtain ⟨h0, h1, h2⟩ := h hi
    rw [if_pos hi, if_pos hi]
    cases allocOk with
    | false => exact h
    | true =>
      rw [if_pos rfl]
      dsimp only
      rw [add_amount_eq _ hamount]
      intro _
      exact (increment_keeps_interval
        { pool with
          state := P.crypto_hash_sha512_update pool.state ((msg ++ ffe).take sizeofPointer) }
        (1 + (msg.length : Int) / 64) (by omega) hsum h0 h1 h2).2
  · simpa [hi] using h

theorem intervalInvariant_get (P : Primitives σ) (pool : sqrl_entropy_pool σ)
    (buf : List Nat) (d : Int) (s1 s2 : List Nat) (h : intervalInvariant pool) :
    intervalInvariant (sqrl_entropy_get P pool buf d s1 s2).2.1 := by
  unfold sqrl_entropy_get
  by_cases hi : pool.initialized = true
  · obtain ⟨h0, h1, _⟩ := h hi
    by_cases he : pool.estimated_entropy ≥ d
    · simp only [hi, he, decide_True, Bool.and_self, if_true]
      by_cases hd : (0 : Int) < d
      · simp only [hd, if_true]
        intro _
        exact ⟨le_refl _, hd, Or.inr ⟨rfl, hd⟩⟩
      · simp only [hd, if_false]
        intro _
        exact ⟨le_refl _, h1, Or.inr ⟨rfl, h1⟩⟩
    · have hlt : pool.estimated_entropy < d := not_le.mp he
      simp only [hi, he, decide_False, Bool.and_false, Bool.false_eq_true, if_false, hlt, if_true]
      intro _
      exact ⟨h0, lt_of_le_of_lt h0 hlt, Or.inr ⟨rfl, hlt⟩⟩
  · intro hq
    exfalso
    apply hi
    simp only [Bool.not_eq_true] at hi
    simp only [hi, Bool.false_and, Bool.false_eq_true, if_false] at hq
    split at hq <;> simp [hi] at hq

theorem waitForEntropy_reached (P : Primitives σ) (d : Int)
    (sleeps : List (List CollectorEvent)) :
    ∀ (pool pw : sqrl_entropy_pool σ) (rest : List (List CollectorEvent)),
      waitForEntropy P d pool sleeps = some (pw, rest) → d ≤ pw.estimated_entropy := by
  induction sleeps with
  | nil =>
    intro pool pw rest h
    unfold waitForEntropy at h
    split at h
    · exact absurd h (by simp)
    · rename_i hn
      simp only [Option.some.injEq, Prod.mk.injEq] at h
      rw [← h.1]
      exact not_lt.mp hn
  | cons evs tl ih =>
    intro pool pw rest h
    unfold waitForEntropy at h
    split at h
    · exact ih _ _ _ h
    · rename_i hn
      simp only [Option.some.injEq, Prod.mk.injEq] at h
      rw [← h.1]
      exact not_lt.mp hn

/-- The extraction performed by `sqrl_entropy_get_blocking` once its wait has
ended on an initialized pool `pw`. -/
theorem sqrl_entropy_get_blocking_extract (P : Primitives σ) (fuel : Nat)
    (pool pw : sqrl_entropy_pool σ) (buf : List Nat) (d : Int)
    (sleeps rest : List (List CollectorEvent)) (s1 s2 : List Nat)
    (hinit : pool.initialized = true)
    (hwait : waitForEntropy P d { pool with entropy_target := d } sleeps = some (pw, rest))
    (hpw : pw.initialized = true) :
    sqrl_entropy_get_blocking P (fuel + 1) pool buf d sleeps s1 s2
      = some (pw.estimated_entropy,
          { pw with
            state := P.sqrl_add_entropy_bracket P.crypto_hash_sha512_init
              (some ((writeAt0 buf (P.crypto_hash_sha512_final
                (P.sqrl_add_entropy_bracket pw.state none s1))).take 64)) s2
            estimated_entropy := 0
            entropy_target := SQRL_ENTROPY_TARGET
            sleeptime := SQRL_NIX_ENTROPY_REPEAT_FAST },
          writeAt0 buf (P.crypto_hash_sha512_final
            (P.sqrl_add_entropy_bracket pw.state none s1))) := by
  have hge : pw.estimated_entropy ≥ d := waitForEntropy_reached P d sleeps _ _ _ hwait
  unfold sqrl_entropy_get_blocking
  simp only [hwait]
  simp [hinit, hpw, hge]

theorem sqrl_entropy_get_blocking_result (P : Primitives σ) (fuel : Nat) :
    ∀ (pool : sqrl_entropy_pool σ) (buf : List Nat) (d : Int)
      (sleeps : List (List CollectorEvent)) (s1 s2 : List Nat) (r : Int)
      (q : sqrl_entropy_pool σ) (b : List Nat),
      sqrl_entropy_get_blocking P fuel pool buf d sleeps s1 s2 = some (r, q, b) →
      q.initialized = true →
      q.estimated_entropy = 0 ∧ q.entropy_target = SQRL_ENTROPY_TARGET ∧
        q.sleeptime = SQRL_NIX_ENTROPY_REPEAT_FAST := by
  induction fuel with
  | zero =>
    intro pool buf d sleeps s1 s2 r q b h
    simp [sqrl_entropy_get_blocking] at h
  | succ fuel ih =>
    intro pool buf d sleeps s1 s2 r q b h hq
    unfold sqrl_entropy_get_blocking at h
    by_cases hi : pool.initialized = true
    · simp only [hi, Bool.not_true, Bool.false_eq_true, if_false] at h
      split at h
      · exact absurd h (by simp)
      · rename_i pw rest hw
        by_cases hc : (pw.initialized && decide (pw.estimated_entropy ≥ d)) = true
        · simp only [hc, if_true, Option.some.injEq, Prod.mk.injEq] at h
          obtain ⟨-, hq', -⟩ := h
          subst hq'
          exact ⟨rfl, rfl, rfl⟩
        · simp only [hc, if_false] at h
          exact ih _ _ _ _ _ _ _ _ _ h hq
    · simp only [Bool.not_eq_true] at hi
      simp only [hi, Bool.not_false, if_true, Option.some.injEq, Prod.mk.injEq] at h
      obtain ⟨-, hq', -⟩ := h
      subst hq'
      rw [hi] at hq
      exact absurd hq (by simp)

theorem intervalInvariant_step (P : Primitives σ) (pool q : sqrl_entropy_pool σ)
    (s : PoolStep) (h : intervalInvariant pool) (hrange : s.inRange pool = true)
    (hrun : s.run P pool = some q) : intervalInvariant q := by
  cases s with
  | update ffe =>
    simp only [PoolStep.run, Option.some.injEq] at hrun
    subst hrun
    exact intervalInvariant_update P pool ffe (by simpa [PoolStep.inRange] using hrange) h
  | call c =>
    cases c with
    | add msg ffe allocOk =>
      simp only [PoolStep.run, PoolCall.step, Option.some.injEq] at hrun
      subst hrun
      simp only [PoolStep.inRange, decide_eq_true_eq] at hrange
      exact intervalInvariant_add P pool msg ffe allocOk hrange.1 hrange.2 h
    | get buf d s1 s2 =>
      simp only [PoolStep.run, PoolCall.step, Option.some.injEq] at hrun
      subst hrun
      exact intervalInvariant_get P pool buf d s1 s2 h
    | get_blocking fuel buf d sleeps s1 s2 =>
      simp only [PoolStep.run, PoolCall.step, Option.map_eq_some'] at hrun
      obtain ⟨⟨r, q', b⟩, hres, hq⟩ := hrun
      dsimp only at hq
      subst hq
      intro hi
      obtain ⟨h1, h2, h3⟩ := sqrl_entropy_get_blocking_result P _ _ _ _ _ _ _ _ _ _ hres hi
      rw [h1, h2]
      exact ⟨le_refl _, by decide, Or.inr ⟨h3, by decide⟩⟩
    | estimate =>
      simp only [PoolStep.run, PoolCall.step, Option.some.injEq] at hrun
      subst hrun
      exact h

theorem intervalInvariant_runSteps (P : Primitives σ) (steps : List PoolStep) :
    ∀ pool q : sqrl_entropy_pool σ, intervalInvariant pool →
      stepsInRange P pool steps = true → runSteps P pool steps = some q →
      intervalInvariant q := by
  induction steps with
  | nil =>
    intro pool q h _ hrun
    simp only [runSteps, Option.some.injEq] at hrun
    subst hrun
    exact h
  | cons s rest ih =>
    intro pool q h hrange hrun
    unfold runSteps at hrun
    unfold stepsInRange at hrange
    cases hs : s.run P pool with
    | none => simp [hs] at hrun
    | some p =>
      simp only [hs, Bool.and_eq_true] at hrun hrange
      exact ih p q (intervalInvariant_step P pool p s h hrange.1 hs) hrange.2 hrun

/-- C11: in every initialized pool reached from `sqrl_entropy_create` by a
sequential run of collector samples and of `add`, `get`, `estimate` and
completed `get_blocking` calls in which the `int` counter does not overflow,
the sleep interval is the slow one exactly when the estimate has reached the
target, and the fast one exactly when it is below the target. -/
theorem sleeptime_tracks_target (P : Primitives σ) (sample : List Nat)
    (steps : List PoolStep) (pool : sqrl_entropy_pool σ)
    (hrange : stepsInRange P (sqrl_entropy_create P sample) steps = true)
    (hrun : runSteps P (sqrl_entropy_create P sample) steps = some pool)
    (hinit : pool.initialized = true) :
    (pool.sleeptime = SQRL_NIX_ENTROPY_REPEAT_SLOW ↔
      pool.estimated_entropy ≥ pool.entropy_target) ∧
    (pool.sleeptime = SQRL_NIX_ENTROPY_REPEAT_FAST ↔
      pool.estimated_entropy < pool.entropy_target) := by
  have hne : SQRL_NIX_ENTROPY_REPEAT_SLOW ≠ SQRL_NIX_ENTROPY_REPEAT_FAST := by decide
  obtain ⟨-, -, h⟩ := intervalInvariant_runSteps P steps _ pool
    (intervalInvariant_create P sample) hrange hrun hinit
  rcases h with ⟨hs, hge⟩ | ⟨hf, hlt⟩
  · refine ⟨⟨fun _ => hge, fun _ => hs⟩, ⟨fun h => ?_, fun h => ?_⟩⟩
    · rw [hs] at h
      exact absurd h hne
    · exact absurd hge (not_le.mpr h)
  · refine ⟨⟨fun h => ?_, fun h => ?_⟩, ⟨fun _ => hlt, fun _ => hf⟩⟩
    · rw [hf] at h
      exact absurd h.symm hne
    · exact absurd hlt (not_lt.mpr h)

theorem sleeptime_tracks_target_witness :
    (sampleRunPool.sleeptime = SQRL_NIX_ENTROPY_REPEAT_SLOW ↔
      sampleRunPool.estimated_entropy ≥ sampleRunPool.entropy_target) ∧
    (sampleRunPool.sleeptime = SQRL_NIX_ENTROPY_REPEAT_FAST ↔
      sampleRunPool.estimated_entropy < sampleRunPool.entropy_target) :=
  sleeptime_tracks_target transcript [7] sampleRun sampleRunPool (by decide) (by decide)
    (by decide)

theorem waitForEntropy_skip (P : Primitives σ) (d : Int) (pool : sqrl_entropy_pool σ)
    (sleeps : List (List CollectorEvent)) (h : pool.estimated_entropy ≥ d) :
    waitForEntropy P d pool sleeps = some (pool, sleeps) := by
  have hn : ¬ pool.estimated_entropy < d := not_lt.mpr h
  cases sleeps <;> simp [waitForEntropy, hn]

theorem take_writeAt0 (buf out : List Nat) (h : out.length = 64) :
    (writeAt0 buf out).take 64 = out ∧ (writeAt0 buf out).drop 64 = buf.drop 64 := by
  unfold writeAt0
  exact ⟨List.take_left' h, by rw [List.drop_left' h, h]⟩

/-- C12: with the hash operations abstract (`final` giving 64 bytes), every
extraction emits `final (bracket old none)` into the first 64 bytes of `buf`
and leaves the hash state `bracket init (some emitted)`: in
`sqrl_entropy_get` when the pool is initialized and holds the desired
entropy, and in `sqrl_entropy_get_blocking` when its wait ends on an
initialized pool `pw`, whose state is then the old one (the entry state
itself when no wait is needed). -/
theorem extraction_bracket (P : Primitives σ)
    (hfinal : ∀ st, (P.crypto_hash_sha512_final st).length = 64)
    (pool : sqrl_entropy_pool σ) (buf : List Nat) (d : Int) (s1 s2 : List Nat)
    (hinit : pool.initialized = true) :
    (pool.estimated_entropy ≥ d →
      (sqrl_entropy_get P pool buf d s1 s2).2.2.take 64
        = P.crypto_hash_sha512_final (P.sqrl_add_entropy_bracket pool.state none s1) ∧
      (sqrl_entropy_get P pool buf d s1 s2).2.2.drop 64 = buf.drop 64 ∧
      (sqrl_entropy_get P pool buf d s1 s2).2.1.state
        = P.sqrl_add_entropy_bracket P.crypto_hash_sha512_init
            (some (P.crypto_hash_sha512_final
              (P.sqrl_add_entropy_bracket pool.state none s1))) s2) ∧
    (∀ (fuel : Nat) (sleeps rest : List (List CollectorEvent)) (pw : sqrl_entropy_pool σ),
      waitForEntropy P d { pool with entropy_target := d } sleeps = some (pw, rest) →
      pw.initialized = true →
      ∃ q b, sqrl_entropy_get_blocking P (fuel + 1) pool buf d sleeps s1 s2
          = some (pw.estimated_entropy, q, b) ∧
        b.take 64
          = P.crypto_hash_sha512_final (P.sqrl_add_entropy_bracket pw.state none s1) ∧
        b.drop 64 = buf.drop 64 ∧
        q.state = P.sqrl_add_entropy_bracket P.crypto_hash_sha512_init
            (some (P.crypto_hash_sha512_final
              (P.sqrl_add_entropy_bracket pw.state none s1))) s2) ∧
    (pool.estimated_entropy ≥ d →
      ∀ (fuel : Nat) (sleeps : List (List CollectorEvent)),
      ∃ q b, sqrl_entropy_get_blocking P (fuel + 1) pool buf d sleeps s1 s2
          = some (pool.estimated_entropy, q, b) ∧
        b.take 64
          = P.crypto_hash_sha512_final (P.sqrl_add_entropy_bracket pool.state none s1) ∧
        b.drop 64 = buf.drop 64 ∧
        q.state = P.sqrl_add_entropy_bracket P.crypto_hash_sha512_init
            (some (P.crypto_hash_sha512_final
              (P.sqrl_add_entropy_bracket pool.state none s1))) s2) := by
  have hblock : ∀ (fuel : Nat) (sleeps rest : List (List CollectorEvent))
      (pw : sqrl_entropy_pool σ),
      waitForEntropy P d { pool with entropy_target := d } sleeps = some (pw, rest) →
      pw.initialized = true →
      ∃ q b, sqrl_entropy_get_blocking P (fuel + 1) pool buf d sleeps s1 s2
          = some (pw.estimated_entropy, q, b) ∧
        b.take 64
          = P.crypto_hash_sha512_final (P.sqrl_add_entropy_bracket pw.state none s1) ∧
        b.drop 64 = buf.drop 64 ∧
        q.state = P.sqrl_add_entropy_bracket P.crypto_hash_sha512_init
            (some (P.crypto_hash_sha512_final
              (P.sqrl_add_entropy_bracket pw.state none s1))) s2 := by
    intro fuel sleeps rest pw hw hpw
    obtain ⟨ht, hd⟩ := take_writeAt0 buf
      (P.crypto_hash_sha512_final (P.sqrl_add_entropy_bracket pw.state none s1)) (hfinal _)
    refine ⟨_, _, sqrl_entropy_get_blocking_extract P fuel pool pw buf d sleeps rest s1 s2
      hinit hw hpw, ht, hd, ?_⟩
    dsimp only
    rw [ht]
  refine ⟨fun he => ?_, hblock, fun he fuel sleeps => ?_⟩
  · obtain ⟨ht, hd⟩ := take_writeAt0 buf
      (P.crypto_hash_sha512_final (P.sqrl_add_entropy_bracket pool.state none s1)) (hfinal _)
    unfold sqrl_entropy_get
    simp only [hinit, he, decide_True, Bool.and_self, if_true]
    refine ⟨ht, hd, ?_⟩
    rw [ht]
    split <;> rfl
  · exact hblock fuel sleeps sleeps { pool with entropy_target := d }
      (waitForEntropy_skip P d _ sleeps he) hinit

theorem extraction_bracket_witness :
    (fullPool.estimated_entropy ≥ 512 →
      (sqrl_entropy_get transcript fullPool [] 512 [1] [2]).2.2.take 64
        = transcript.crypto_hash_sha512_final
            (transcript.sqrl_add_entropy_bracket fullPool.state none [1]) ∧
      (sqrl_entropy_get transcript fullPool [] 512 [1] [2]).2.2.drop 64 = ([] : List Nat).drop 64 ∧
      (sqrl_entropy_get transcript fullPool [] 512 [1] [2]).2.1.state
        = transcript.sqrl_add_entropy_bracket transcript.crypto_hash_sha512_init
            (some (transcript.crypto_hash_sha512_final
              (transcript.sqrl_add_entropy_bracket fullPool.state none [1]))) [2]) ∧
    (∀ (fuel : Nat) (sleeps rest : List (List CollectorEvent))
        (pw : sqrl_entropy_pool (List Nat)),
      waitForEntropy transcript 512 { fullPool with entropy_target := 512 } sleeps
        = some (pw, rest) →
      pw.initialized = true →
      ∃ q b, sqrl_entropy_get_blocking transcript (fuel + 1) fullPool [] 512 sleeps [1] [2]
          = some (pw.estimated_entropy, q, b) ∧
        b.take 64
          = transcript.crypto_hash_sha512_final
              (transcript.sqrl_add_entropy_bracket pw.state none [1]) ∧
        b.drop 64 = ([] : List Nat).drop 64 ∧
        q.state = transcript.sqrl_add_entropy_bracket transcript.crypto_hash_sha512_init
            (some (transcript.crypto_hash_sha512_final
              (transcript.sqrl_add_entropy_bracket pw.state none [1]))) [2]) ∧
    (fullPool.estimated_entropy ≥ 512 →
      ∀ (fuel : Nat) (sleeps : List (List CollectorEvent)),
      ∃ q b, sqrl_entropy_get_blocking transcript (fuel + 1) fullPool [] 512 sleeps [1] [2]
          = some (fullPool.estimated_entropy, q, b) ∧
        b.take 64
          = transcript.crypto_hash_sha512_final
              (transcript.sqrl_add_entropy_bracket fullPool.state none [1]) ∧
        b.drop 64 = ([] : List Nat).drop 64 ∧
        q.state = transcript.sqrl_add_entropy_bracket transcript.crypto_hash_sha512_init
            (some (transcript.crypto_hash_sha512_final
              (transcript.sqrl_add_entropy_bracket fullPool.state none [1]))) [2]) :=
  extraction_bracket transcript (fun st => by simp [transcript]) fullPool [] 512 [1] [2] rfl

end Sqrl
